import Mathlib

/-!
Verification development for the additive-secret-sharing BGW engine in
`bgw.py`.  The Python classes are shallowly embedded: the shared
`SystemRandom` instance becomes an explicit stream `s : Nat → Nat` together
with a draw counter `k : Nat` (a call `rng.randrange(m)` yields `s k % m`,
which ranges over exactly the values `[0, m)` that the source can draw, and
advances the counter); Python `dict`s keyed by wire index become lists
indexed by position (`none` = key absent); Python `int` becomes `Int`, and
Python's `%` on a positive modulus coincides with `Int.emod`.
-/

/-- The four wire kinds of the circuit model (`Wire`, `InputWire`,
`AddWire`, `ConstMultWire`, `MultWire` in the source), tagged with the
`is_output` flag every wire carries. -/
inductive Wire where
  | input (is_output : Bool) (owner_id : Nat)
  | add (is_output : Bool) (wire_a_id wire_b_id : Nat)
  | constMult (is_output : Bool) (c : Int) (wire_a_id : Nat)
  | mult (is_output : Bool) (wire_a_id wire_b_id : Nat)
deriving DecidableEq, Repr

/-- `isinstance(w, MultWire)`. -/
def Wire.isMult : Wire → Bool
  | .mult _ _ _ => true
  | _ => false

/-- The `is_output` flag of a wire. -/
def Wire.is_output : Wire → Bool
  | .input o _ => o
  | .add o _ _ => o
  | .constMult o _ _ => o
  | .mult o _ _ => o

/-- The default wire used for (unreachable) out-of-range list reads. -/
def Wire.dflt : Wire := Wire.input false 0

/-- `cnt` successive draws `rng.randrange(mod)`: the loop body of
`BGW.create_shares`.  Returns the drawn values and the advanced counter. -/
def drawList (s : Nat → Nat) (k cnt m : Nat) : List Int × Nat :=
  match cnt with
  | 0 => ([], k)
  | c + 1 =>
      let rest := drawList s (k + 1) c m
      (((s k % m : Nat) : Int) :: rest.1, rest.2)

/-- `BGW.create_shares(rng, secret, share_count, mod)`: `share_count - 1`
random draws followed by the balancing final share. -/
def create_shares (s : Nat → Nat) (k : Nat) (secret : Int) (share_count m : Nat) :
    List Int × Nat :=
  let d := drawList s k (share_count - 1) m
  (d.1 ++ [(secret - d.1.sum) % (m : Int)], d.2)

/-- `BGW.recover_secret(shares, mod) = sum(shares) % mod`. -/
def recover_secret (shares : List Int) (m : Nat) : Int :=
  shares.sum % (m : Int)

namespace BGW

/-- `BGW.add(a_share, b_share, mod)`. -/
def add (a_share b_share : Int) (m : Nat) : Int :=
  (a_share + b_share) % (m : Int)

/-- `BGW.const_mult(c, a_share, mod)`. -/
def const_mult (c a_share : Int) (m : Nat) : Int :=
  (c * a_share) % (m : Int)

/-- `BGW.mult(is_alice, x_share, y_share, z_share, a_prime, b_prime, mod)`:
the Beaver-triple combination; the cross term is added only for Alice. -/
def mult (is_alice : Bool) (x_share y_share z_share a_prime b_prime : Int)
    (m : Nat) : Int :=
  let res := a_prime * y_share + b_prime * x_share + z_share
  (if is_alice then res + a_prime * b_prime else res) % (m : Int)

end BGW

/-- The list of all parties' `BGW.mult` outputs for one multiplication,
party `0` playing Alice: the per-party outputs whose sum the spec's
multiplication-correctness property constrains. -/
def multRoundOutputs (n : Nat) (xs ys zs : List Int) (D E : Int) (m : Nat) :
    List Int :=
  (List.range n).map (fun i =>
    BGW.mult (i == 0) (xs.getD i 0) (ys.getD i 0) (zs.getD i 0) D E m)

/-- The all-zero realization of the randomness source. -/
def zeroStream : Nat → Nat := fun _ => 0

-- ------------------------------------------------------------------
-- the trusted third party (class TTP)
-- ------------------------------------------------------------------

/-- Lookup in a Python dict with `Nat` keys, represented as an association
list where the most recent binding for a key comes first. -/
def dictLookup {α : Type} (g : Nat) : List (Nat × α) → Option α
  | [] => none
  | (k, v) :: rest => if g = k then some v else dictLookup g rest

/-- The state of the `TTP`: client count, modulus and the `triples` cache
mapping a gate id to the three full share vectors. -/
structure TTPSt where
  client_count : Nat
  mod : Nat
  triples : List (Nat × (List Int × List Int × List Int))
deriving DecidableEq, Repr

/-- `TTP.__init__(client_count, mod, rng)`: empty cache. -/
def TTP.init (client_count m : Nat) : TTPSt :=
  { client_count := client_count, mod := m, triples := [] }

/-- `TTP._create_beaver_triple(gate_id, client_id)`: draw `x`, `y`, set
`z = x*y % mod`, share each across all clients, cache the share vectors and
return this client's slice. -/
def TTP.create_beaver_triple (s : Nat → Nat) (ttp : TTPSt) (k gate_id client_id : Nat) :
    (Int × Int × Int) × TTPSt × Nat :=
  let x : Int := (s k % ttp.mod : Nat)
  let y : Int := (s (k + 1) % ttp.mod : Nat)
  let z : Int := x * y % (ttp.mod : Int)
  let xr := create_shares s (k + 2) x ttp.client_count ttp.mod
  let yr := create_shares s xr.2 y ttp.client_count ttp.mod
  let zr := create_shares s yr.2 z ttp.client_count ttp.mod
  let ttp2 := { ttp with triples := (gate_id, (xr.1, yr.1, zr.1)) :: ttp.triples }
  ((xr.1.getD client_id 0, yr.1.getD client_id 0, zr.1.getD client_id 0), ttp2, zr.2)

/-- `TTP.get_beaver_triple(gate_id, client_id)`: return the cached slice,
generating the triple first if this gate id was never seen. -/
def TTP.get_beaver_triple (s : Nat → Nat) (ttp : TTPSt) (k gate_id client_id : Nat) :
    (Int × Int × Int) × TTPSt × Nat :=
  match dictLookup gate_id ttp.triples with
  | some t => ((t.1.getD client_id 0, t.2.1.getD client_id 0, t.2.2.getD client_id 0), ttp, k)
  | none => TTP.create_beaver_triple s ttp k gate_id client_id

/-- An arbitrary interleaving of `get_beaver_triple` calls: each list entry
is a `(gate_id, client_id)` pair. -/
def runCalls (s : Nat → Nat) (calls : List (Nat × Nat)) (ttp : TTPSt) (k : Nat) :
    TTPSt × Nat :=
  calls.foldl (fun acc c =>
    let r := TTP.get_beaver_triple s acc.1 acc.2 c.1 c.2
    (r.2.1, r.2.2)) (ttp, k)

/-- Every cached triple entry holds three `n`-length share vectors that
recombine (mod `m`) to some `(x, y, x*y mod m)`. -/
def GoodTriples (n m : Nat) (ttp : TTPSt) : Prop :=
  ∀ g T, dictLookup g ttp.triples = some T →
    T.1.length = n ∧ T.2.1.length = n ∧ T.2.2.length = n ∧
    recover_secret T.2.2 m =
      (recover_secret T.1 m * recover_secret T.2.1 m) % (m : Int)

-- ------------------------------------------------------------------
-- the party (class Client)
-- ------------------------------------------------------------------

/-- The mutable state of a `Client`.  `input_shares` maps a wire index to
the n-length share vector this party knows for that wire; `beaver_shares`
and `output` are the wire-indexed dicts of the source, with `none` marking
an absent key; `n` is `len(self.clients)` (set by `set_clients`). -/
structure ClientSt where
  client_id : Nat
  circuit : List Wire
  inputs : List (Nat × Int)
  mod : Nat
  n : Nat
  input_shares : List (List Int)
  beaver_shares : List (Option (Int × Int × Int))
  output : List (Option Int)
deriving DecidableEq, Repr

/-- A placeholder client used for (unreachable) out-of-range list reads. -/
def ClientSt.empty : ClientSt :=
  { client_id := 0, circuit := [], inputs := [], mod := 1, n := 0,
    input_shares := [], beaver_shares := [], output := [] }

/-- `Client.__init__(client_id, ttp, circuit, inputs, mod, rng)`: stores its
arguments and performs no validation or other computation.  (`output = {}`
is the empty dict: every wire key is still absent.) -/
def Client.init (client_id : Nat) (circuit : List Wire) (inputs : List (Nat × Int))
    (m : Nat) : ClientSt :=
  { client_id := client_id, circuit := circuit, inputs := inputs, mod := m,
    n := 0, input_shares := [], beaver_shares := [],
    output := List.replicate circuit.length none }

/-- `Client.get_input_share(wire_id, requester_id)`: returns
`input_shares[wire_id][requester_id]` with no ownership or range check (the
`is not None` guard in the source is always true after `local_setup`, since
every wire is pre-allocated a zero vector). -/
def get_input_share (st : ClientSt) (wire_id requester_id : Nat) : Int :=
  (st.input_shares.getD wire_id []).getD requester_id 0

/-- `Client.local_setup()`: pre-allocate a zero share vector for every
wire, then split each private input into `n` shares. -/
def local_setup (s : Nat → Nat) (st : ClientSt) (k : Nat) : ClientSt × Nat :=
  let base := List.replicate st.circuit.length (List.replicate st.n (0 : Int))
  let r := st.inputs.foldl (fun (acc : List (List Int) × Nat) wv =>
      let cs := create_shares s acc.2 wv.2 st.n st.mod
      (acc.1.set wv.1 cs.1, cs.2)) (base, k)
  ({ st with input_shares := r.1 }, r.2)

/-- `Client.interactive_setup()`: reset `beaver_shares`, then walk the
circuit fetching this party's triple slice for every `Mult` wire and
pulling this party's input share from the owner of every `Input` wire.
`allClients` is the live, id-ordered party list (`self.clients`); pulls
from this party itself read the threaded state, as the live object would.
This is the per-wire loop body. -/
def interactive_step (s : Nat → Nat) (allClients : List ClientSt)
    (acc : ClientSt × TTPSt × Nat) (wire_id : Nat) : ClientSt × TTPSt × Nat :=
  let st := acc.1
  match st.circuit.getD wire_id Wire.dflt with
  | Wire.mult _ _ _ =>
      let r := TTP.get_beaver_triple s acc.2.1 acc.2.2 wire_id st.client_id
      ({ st with beaver_shares := st.beaver_shares.set wire_id (some r.1) },
       r.2.1, r.2.2)
  | Wire.input _ owner =>
      let owner_st := if owner = st.client_id then st else allClients.getD owner ClientSt.empty
      let v := get_input_share owner_st wire_id st.client_id
      ({ st with input_shares :=
          st.input_shares.set wire_id ((st.input_shares.getD wire_id []).set st.client_id v) },
       acc.2.1, acc.2.2)
  | _ => acc

/-- `Client.interactive_setup()`: the fold of `interactive_step` over all
wire indices, after resetting `beaver_shares` to the empty dict. -/
def interactive_setup (s : Nat → Nat) (allClients : List ClientSt) (ttp : TTPSt)
    (k : Nat) (st : ClientSt) : ClientSt × TTPSt × Nat :=
  let st0 := { st with beaver_shares := List.replicate st.circuit.length none }
  (List.range st0.circuit.length).foldl (interactive_step s allClients) (st0, ttp, k)

/-- `Client.get_masked_shares(wire_id)`: this party's local, unopened
differences `a_share - x_share` and `b_share - y_share` for a `Mult` wire
(non-`Mult` wires would raise in the source; unreachable). -/
def get_masked_shares (st : ClientSt) (wire_id : Nat) : Int × Int :=
  match st.circuit.getD wire_id Wire.dflt with
  | Wire.mult _ a b =>
      let t := (st.beaver_shares.getD wire_id none).getD (0, 0, 0)
      (get_input_share st a st.client_id - t.1,
       get_input_share st b st.client_id - t.2.1)
  | _ => (0, 0)

/-- `Client.get_output_share(wire_id)`: this party's share of the value of
wire `wire_id`, dispatching on the wire kind. -/
def get_output_share (st : ClientSt) (wire_id : Nat) : Int :=
  match st.circuit.getD wire_id Wire.dflt with
  | Wire.mult _ _ _ =>
      let t := (st.beaver_shares.getD wire_id none).getD (0, 0, 0)
      let ms := get_masked_shares st wire_id
      BGW.mult (st.client_id == 0) t.1 t.2.1 t.2.2 ms.1 ms.2 st.mod
  | Wire.add _ a b =>
      BGW.add (get_input_share st a st.client_id) (get_input_share st b st.client_id) st.mod
  | Wire.constMult _ c a =>
      BGW.const_mult c (get_input_share st a st.client_id) st.mod
  | Wire.input _ _ => get_input_share st wire_id st.client_id

/-- The `for wire_id in range(start_at_wire_id, len(self.circuit))` loop of
`Client.run_circuit_until_mult`, with `fuel` the number of remaining loop
indices.  Note the source tests `self.circuit[start_at_wire_id]` — the
start wire, not the current one — so `start` stays fixed in the guard. -/
def run_until_go (st : ClientSt) (start wire_id fuel : Nat) : ClientSt × Option Nat :=
  match fuel with
  | 0 => (st, none)
  | f + 1 =>
      let v := get_output_share st wire_id
      let st2 := { st with
        output := st.output.set wire_id (some v),
        input_shares :=
          st.input_shares.set wire_id ((st.input_shares.getD wire_id []).set st.client_id v) }
      if (st.circuit.getD start Wire.dflt).isMult then (st2, some wire_id)
      else run_until_go st2 start (wire_id + 1) f

/-- `Client.run_circuit_until_mult(start_at_wire_id)`: evaluate from
`start_at_wire_id`, returning the wire index stopped at or `none`. -/
def run_circuit_until_mult (st : ClientSt) (start : Nat) : ClientSt × Option Nat :=
  run_until_go st start start (st.circuit.length - start)

-- ------------------------------------------------------------------
-- the orchestrator (BGW.run_circuit)
-- ------------------------------------------------------------------

/-- The whole protocol state: all parties (listed in client-id order, as
the driver constructs them), the TTP, the randomness counter and the
`progress` list of `BGW.run_circuit` (`some v` = the Python int `v`,
`none` = Python `None`). -/
structure GlobalSt where
  clients : List ClientSt
  ttp : TTPSt
  k : Nat
  progress : List (Option Int)
deriving DecidableEq, Repr

/-- `for client in clients: client.local_setup()`, in list order. -/
def localPhase (s : Nat → Nat) (clients : List ClientSt) (k : Nat) :
    List ClientSt × Nat :=
  clients.foldl (fun acc st =>
    let r := local_setup s st acc.2
    (acc.1 ++ [r.1], r.2)) ([], k)

/-- `for client in clients: client.interactive_setup()`: each party sees
the earlier parties' already-updated live states. -/
def interactivePhaseGo (s : Nat → Nat) (done todo : List ClientSt) (ttp : TTPSt)
    (k : Nat) : List ClientSt × TTPSt × Nat :=
  match todo with
  | [] => (done, ttp, k)
  | st :: rest =>
      let r := interactive_setup s (done ++ st :: rest) ttp k st
      interactivePhaseGo s (done ++ [r.1]) rest r.2.1 r.2.2

/-- The interactive-setup pass over all parties. -/
def interactivePhase (s : Nat → Nat) (clients : List ClientSt) (ttp : TTPSt)
    (k : Nat) : List ClientSt × TTPSt × Nat :=
  interactivePhaseGo s [] clients ttp k

/-- One `progress[i] = client.run_circuit_until_mult(progress[i]+1)` pass,
positionally over parties and progress entries.  (A `none` progress entry
would raise `TypeError` in the source on `None + 1`; the `getD (-1)` read
is proven unreachable while the loop runs.) -/
def advanceAll (clients : List ClientSt) (progress : List (Option Int)) :
    List ClientSt × List (Option Int) :=
  match clients, progress with
  | c :: cs, p :: ps =>
      let r := run_circuit_until_mult c (p.getD (-1) + 1).toNat
      let rest := advanceAll cs ps
      (r.1 :: rest.1, (r.2.map (fun x => (x : Int))) :: rest.2)
  | cs, _ => (cs, [])

/-- One iteration of the `while True` body: advance every party, then run
every party's `interactive_setup` again. -/
def evalRound (s : Nat → Nat) (gs : GlobalSt) : GlobalSt :=
  let a := advanceAll gs.clients gs.progress
  let r := interactivePhase s a.1 gs.ttp gs.k
  { clients := r.1, ttp := r.2.1, k := r.2.2, progress := a.2 }

/-- The `while True` loop with its `if progress[0] is None: break` guard,
bounded by explicit fuel (adequate fuel is proven below). -/
def evalLoop (s : Nat → Nat) (fuel : Nat) (gs : GlobalSt) : GlobalSt :=
  match fuel with
  | 0 => gs
  | f + 1 =>
      if (gs.progress.getD 0 (some (-1))).isNone then gs
      else evalLoop s f (evalRound s gs)

/-- The dict comprehension
`{k: (circuit.get(k, 0) + client.get_outputs().get(k, 0)) % mod for k in set(circuit)}`. -/
def mergeOutputs (m : Nat) (acc out : List (Option Int)) : List (Option Int) :=
  (List.range acc.length).map (fun k =>
    match acc.getD k none with
    | some v => some ((v + (out.getD k none).getD 0) % (m : Int))
    | none => none)

/-- The aggregation loop at the end of `BGW.run_circuit`: the first
non-empty output dict seeds the result, later parties' shares are folded
in modulo `m`. -/
def aggregate (m : Nat) (outs : List (List (Option Int))) : List (Option Int) :=
  outs.foldl (fun acc o =>
    if acc.all (fun x => x.isNone) then o else mergeOutputs m acc o) []

/-- The setup part of `BGW.run_circuit`: `set_clients` (records the party
count; parties are already in id order) and `local_setup` for every party,
then the first `interactive_setup` pass, then `progress = [-1] * n`. -/
def run_setup (s : Nat → Nat) (clients : List ClientSt) (ttp : TTPSt) (k : Nat) :
    GlobalSt :=
  let clients1 := clients.map (fun c => { c with n := clients.length })
  let lp := localPhase s clients1 k
  let ip := interactivePhase s lp.1 ttp lp.2
  { clients := ip.1, ttp := ip.2.1, k := ip.2.2,
    progress := List.replicate clients.length (some (-1)) }

/-- `BGW.run_circuit(clients, mod)`: setup, the lock-step evaluation loop
(its fuel `len(circuit) + 2` is proven sufficient below), and the final
aggregation of every party's `get_outputs()` dict. -/
def run_circuit (s : Nat → Nat) (clients : List ClientSt) (ttp : TTPSt)
    (k m : Nat) : List (Option Int) :=
  let gs0 := run_setup s clients ttp k
  let L := (clients.headD ClientSt.empty).circuit.length
  let gsF := evalLoop s (L + 2) gs0
  aggregate m (gsF.clients.map (fun c => c.output))

/-- The value `run_circuit_until_mult` returns, as a function of the
circuit and the start index alone (proven below). -/
def untilRet (C : List Wire) (start : Nat) : Option Nat :=
  if (C.getD start Wire.dflt).isMult then some start else none

/-- The lock-step invariant: all parties hold circuit `C`, there are `n`
of them, and the `progress` entries are all equal. -/
def SharedCirc (C : List Wire) (n : Nat) (gs : GlobalSt) : Prop :=
  (∀ c ∈ gs.clients, c.circuit = C) ∧ gs.clients.length = n ∧
    ∃ p, gs.progress = List.replicate n p

-- ------------------------------------------------------------------
-- concrete instances used by the claims
-- ------------------------------------------------------------------

/-- A single-`Mult` circuit: two private inputs feeding one output `Mult`. -/
def c1Circuit : List Wire :=
  [Wire.input false 0, Wire.input false 1, Wire.mult true 0 1]

/-- Two parties holding `A = 1` (wire 0) and `B = 1` (wire 1), modulus 2. -/
def c1Clients : List ClientSt :=
  [Client.init 0 c1Circuit [(0, 1)] 2, Client.init 1 c1Circuit [(1, 1)] 2]

/-- A realization of the randomness source differing from `zeroStream`
only in the fifth draw. -/
def c8Stream : Nat → Nat := fun j => if j = 4 then 1 else 0

/-- A circuit whose first wire is an input and whose second is a `Mult`. -/
def c4Circuit : List Wire := [Wire.input false 0, Wire.mult true 0 0]

/-- The protocol state for `c4Circuit` after setup, before evaluation. -/
def c4Setup : GlobalSt :=
  run_setup zeroStream
    [Client.init 0 c4Circuit [(0, 1)] 2, Client.init 1 c4Circuit [] 2]
    (TTP.init 2 2) 0

/-- Party 0 of `c4Setup`. -/
def c4client : ClientSt := c4Setup.clients.getD 0 ClientSt.empty

/-- Two input wires owned by parties 0 and 1 respectively. -/
def c6Circuit : List Wire := [Wire.input false 0, Wire.input false 1]

/-- The protocol state for `c6Circuit` after setup. -/
def c6Setup : GlobalSt :=
  run_setup zeroStream
    [Client.init 0 c6Circuit [(0, 1)] 2, Client.init 1 c6Circuit [(1, 1)] 2]
    (TTP.init 2 2) 0

/-- Party 1 of `c6Setup`: it does not own wire 0. -/
def c6client : ClientSt := c6Setup.clients.getD 1 ClientSt.empty

/-- A malformed circuit: the `Add` wire at index 0 references predecessor
index 0, which is not strictly less than its own index. -/
def c9Circuit : List Wire := [Wire.add true 0 0]

-- ------------------------------------------------------------------
-- helper lemmas about the share arithmetic
-- ------------------------------------------------------------------

theorem drawList_length (s : Nat → Nat) (m : Nat) :
    ∀ (cnt k : Nat), (drawList s k cnt m).1.length = cnt := by
  intro cnt
  induction cnt with
  | zero => intro k; rfl
  | succ c ih => intro k; simp [drawList, ih (k + 1)]

theorem drawList_mem_bounds (s : Nat → Nat) (m : Nat) (hm : 0 < m) :
    ∀ (cnt k : Nat), ∀ x ∈ (drawList s k cnt m).1, 0 ≤ x ∧ x < (m : Int) := by
  intro cnt
  induction cnt with
  | zero => intro k x hx; simp [drawList] at hx
  | succ c ih =>
      intro k x hx
      simp only [drawList, List.mem_cons] at hx
      rcases hx with h | h
      · subst h
        refine ⟨Int.ofNat_nonneg _, ?_⟩
        exact_mod_cast Nat.mod_lt (s k) hm
      · exact ih (k + 1) x h

theorem create_shares_shape (s : Nat → Nat) (k : Nat) (secret : Int)
    (n m : Nat) :
    (create_shares s k secret n m).1 =
      (drawList s k (n - 1) m).1 ++
        [(secret - (drawList s k (n - 1) m).1.sum) % (m : Int)] := rfl

theorem recover_create (s : Nat → Nat) (k : Nat) (secret : Int) (n m : Nat) :
    recover_secret (create_shares s k secret n m).1 m = secret % (m : Int) := by
  have hmod : Int.ModEq (m : Int)
      ((drawList s k (n - 1) m).1.sum +
        (secret - (drawList s k (n - 1) m).1.sum) % (m : Int))
      secret := by
    have h1 : Int.ModEq (m : Int)
        ((secret - (drawList s k (n - 1) m).1.sum) % (m : Int))
        (secret - (drawList s k (n - 1) m).1.sum) :=
      Int.emod_emod_of_dvd _ dvd_rfl
    have h2 := h1.add_left ((drawList s k (n - 1) m).1.sum)
    have h3 : (drawList s k (n - 1) m).1.sum +
        (secret - (drawList s k (n - 1) m).1.sum) = secret := by ring
    rw [h3] at h2
    exact h2
  have hs : (create_shares s k secret n m).1.sum =
      (drawList s k (n - 1) m).1.sum +
        (secret - (drawList s k (n - 1) m).1.sum) % (m : Int) := by
    simp [create_shares]
  rw [recover_secret, hs]
  exact hmod

theorem create_shares_length (s : Nat → Nat) (k : Nat) (secret : Int) (n m : Nat)
    (hn : 1 ≤ n) : (create_shares s k secret n m).1.length = n := by
  rw [create_shares_shape, List.length_append, drawList_length]
  simp only [List.length_cons, List.length_nil]
  omega

theorem bgw_mult_eq (i : Nat) (xi yi zi D E : Int) (m : Nat) :
    BGW.mult (i == 0) xi yi zi D E m =
      (D * yi + E * xi + zi + if i = 0 then D * E else 0) % (m : Int) := by
  by_cases h : i = 0 <;> simp [BGW.mult, h]

theorem sum_map_emod (m : Nat) (g : Nat → Int) :
    ∀ l : List Nat, ((l.map (fun i => g i % (m : Int))).sum) % (m : Int) =
      ((l.map g).sum) % (m : Int) := by
  intro l
  induction l with
  | nil => simp
  | cons a t ih =>
      rw [List.map_cons, List.sum_cons, Int.add_emod,
        Int.emod_emod_of_dvd _ dvd_rfl, ih, ← Int.add_emod,
        ← List.sum_cons, ← List.map_cons]

theorem sum_map_add (l : List Nat) (g h : Nat → Int) :
    (l.map (fun i => g i + h i)).sum = (l.map g).sum + (l.map h).sum := by
  induction l with
  | nil => simp
  | cons a t ih => simp [ih]; ring

theorem sum_map_mul_left (l : List Nat) (c : Int) (g : Nat → Int) :
    (l.map (fun i => c * g i)).sum = c * (l.map g).sum := by
  induction l with
  | nil => simp
  | cons a t ih => simp [ih]; ring

theorem sum_range_if (n : Nat) (c : Int) (hn : 1 ≤ n) :
    ((List.range n).map (fun i => if i = 0 then c else 0)).sum = c := by
  induction n with
  | zero => omega
  | succ t ih =>
      rw [List.range_succ t, List.map_append, List.sum_append]
      rcases Nat.eq_zero_or_pos t with h | h
      · subst h; simp
      · rw [ih h]
        have ht : ¬ t = 0 := by omega
        simp [ht]

theorem map_range_getD (d : Int) :
    ∀ l : List Int, (List.range l.length).map (fun i => l.getD i d) = l := by
  intro l
  induction l with
  | nil => simp
  | cons a t ih =>
      rw [List.length_cons, List.range_succ_eq_map t.length]
      simp only [List.map_cons, List.map_map, Function.comp_def,
        Nat.succ_eq_add_one, List.getD_cons_succ, List.getD_cons_zero]
      rw [ih]

/-- C2.  For every secret, share count `n ≥ 2`, modulus `m > 1` and
randomness realization, `recover_secret` inverts `create_shares` modulo
`m`; exactly `n` shares are produced; the first `n - 1` lie in `[0, m)`
(they are the random draws) and the last balances to
`(secret - sum of the others) mod m`. -/
theorem create_shares_recover_secret (s : Nat → Nat) (k : Nat) (secret : Int)
    (n m : Nat) (hn : 2 ≤ n) (hm : 1 < m) :
    recover_secret (create_shares s k secret n m).1 m = secret % (m : Int)
    ∧ (create_shares s k secret n m).1.length = n
    ∧ (∀ x ∈ (create_shares s k secret n m).1.take (n - 1), 0 ≤ x ∧ x < (m : Int))
    ∧ (create_shares s k secret n m).1.drop (n - 1) =
        [(secret - ((create_shares s k secret n m).1.take (n - 1)).sum) % (m : Int)] := by
  have hlen : (drawList s k (n - 1) m).1.length = n - 1 := drawList_length s m (n - 1) k
  have htake : (create_shares s k secret n m).1.take (n - 1) = (drawList s k (n - 1) m).1 := by
    rw [create_shares_shape]
    exact List.take_left' hlen
  have hdrop : (create_shares s k secret n m).1.drop (n - 1) =
      [(secret - (drawList s k (n - 1) m).1.sum) % (m : Int)] := by
    rw [create_shares_shape]
    exact List.drop_left' hlen
  refine ⟨recover_create s k secret n m, create_shares_length s k secret n m (by omega), ?_, ?_⟩
  · intro x hx
    rw [htake] at hx
    exact drawList_mem_bounds s m (by omega) (n - 1) k x hx
  · rw [hdrop, htake]

/-- Witness for C2 at `secret = 5`, `n = 2`, `m = 3`, all-zero draws. -/
theorem create_shares_recover_secret_witness :
    recover_secret (create_shares zeroStream 0 5 2 3).1 3 = 5 % ((3 : Nat) : Int) :=
  (create_shares_recover_secret zeroStream 0 5 2 3 (by decide) (by decide)).1

/-- C3.  With additive sharings of the triple components `x`, `y`,
`z ≡ x*y`, and the fully opened differences `D = A - x`, `E = B - y`,
summing every party's `BGW.mult` output (party 0 adding the cross term)
reconstructs `(A*B) mod m`. -/
theorem bgw_mult_opened_correct (n m : Nat) (A B x y : Int) (xs ys zs : List Int)
    (hn : 2 ≤ n) (hm : 1 < m)
    (hxl : xs.length = n) (hyl : ys.length = n) (hzl : zs.length = n)
    (hx : xs.sum % (m : Int) = x % (m : Int))
    (hy : ys.sum % (m : Int) = y % (m : Int))
    (hz : zs.sum % (m : Int) = (x * y) % (m : Int)) :
    recover_secret (multRoundOutputs n xs ys zs (A - x) (B - y) m) m =
      (A * B) % (m : Int) := by
  have hmap : multRoundOutputs n xs ys zs (A - x) (B - y) m =
      (List.range n).map (fun i =>
        ((A - x) * ys.getD i 0 + (B - y) * xs.getD i 0 + zs.getD i 0 +
          if i = 0 then (A - x) * (B - y) else 0) % (m : Int)) := by
    unfold multRoundOutputs
    exact List.map_congr_left (fun i _ => bgw_mult_eq i (xs.getD i 0) (ys.getD i 0)
      (zs.getD i 0) (A - x) (B - y) m)
  have hsum : ((List.range n).map (fun i =>
      (A - x) * ys.getD i 0 + (B - y) * xs.getD i 0 + zs.getD i 0 +
        if i = 0 then (A - x) * (B - y) else 0)).sum =
      (A - x) * ys.sum + (B - y) * xs.sum + zs.sum + (A - x) * (B - y) := by
    rw [sum_map_add (List.range n)
      (fun i => (A - x) * ys.getD i 0 + (B - y) * xs.getD i 0 + zs.getD i 0)
      (fun i => if i = 0 then (A - x) * (B - y) else 0)]
    rw [sum_map_add (List.range n)
      (fun i => (A - x) * ys.getD i 0 + (B - y) * xs.getD i 0)
      (fun i => zs.getD i 0)]
    rw [sum_map_add (List.range n)
      (fun i => (A - x) * ys.getD i 0) (fun i => (B - y) * xs.getD i 0)]
    rw [sum_map_mul_left (List.range n) (A - x) (fun i => ys.getD i 0)]
    rw [sum_map_mul_left (List.range n) (B - y) (fun i => xs.getD i 0)]
    rw [sum_range_if n ((A - x) * (B - y)) (by omega)]
    have hxs : (List.range n).map (fun i => xs.getD i 0) = xs := by
      rw [← hxl]; exact map_range_getD 0 xs
    have hys : (List.range n).map (fun i => ys.getD i 0) = ys := by
      rw [← hyl]; exact map_range_getD 0 ys
    have hzs : (List.range n).map (fun i => zs.getD i 0) = zs := by
      rw [← hzl]; exact map_range_getD 0 zs
    rw [hxs, hys, hzs]
  have hmod : Int.ModEq (m : Int)
      ((A - x) * ys.sum + (B - y) * xs.sum + zs.sum + (A - x) * (B - y))
      ((A - x) * y + (B - y) * x + x * y + (A - x) * (B - y)) := by
    have hx' : Int.ModEq (m : Int) xs.sum x := hx
    have hy' : Int.ModEq (m : Int) ys.sum y := hy
    have hz' : Int.ModEq (m : Int) zs.sum (x * y) := hz
    exact (((hy'.mul_left (A - x)).add (hx'.mul_left (B - y))).add hz').add
      (Int.ModEq.refl ((A - x) * (B - y)))
  have hring : (A - x) * y + (B - y) * x + x * y + (A - x) * (B - y) = A * B := by
    ring
  rw [recover_secret, hmap, sum_map_emod m _ (List.range n), hsum]
  rw [hring] at hmod
  exact hmod

/-- Witness for C3: `n = 2`, `m = 5`, `A = 2`, `B = 3`, triple `x = 3`,
`y = 4`, `z = 2` shared as `[1,2]`, `[0,4]`, `[1,1]`. -/
theorem bgw_mult_opened_correct_witness :
    recover_secret (multRoundOutputs 2 [1, 2] [0, 4] [1, 1] (2 - 3) (3 - 4) 5) 5 =
      (2 * 3) % ((5 : Nat) : Int) :=
  bgw_mult_opened_correct 2 5 2 3 3 4 [1, 2] [0, 4] [1, 1] (by decide) (by decide)
    (by decide) (by decide) (by decide) (by decide) (by decide) (by decide)

-- ------------------------------------------------------------------
-- C5: the triple authority
-- ------------------------------------------------------------------

theorem dictLookup_cons {α : Type} (g k : Nat) (v : α) (l : List (Nat × α)) :
    dictLookup g ((k, v) :: l) = if g = k then some v else dictLookup g l := rfl

theorem get_beaver_preserves_entry (s : Nat → Nat) (ttp : TTPSt) (k g g2 c : Nat)
    (T : List Int × List Int × List Int)
    (h : dictLookup g ttp.triples = some T) :
    dictLookup g ((TTP.get_beaver_triple s ttp k g2 c).2.1).triples = some T := by
  unfold TTP.get_beaver_triple
  cases hl : dictLookup g2 ttp.triples with
  | some t => simpa using h
  | none =>
      by_cases hg : g = g2
      · subst hg; rw [h] at hl; cases hl
      · simp only [TTP.create_beaver_triple, dictLookup_cons, hg, if_false]
        exact h

theorem get_beaver_entry_exists (s : Nat → Nat) (ttp : TTPSt) (k g c : Nat) :
    (dictLookup g ((TTP.get_beaver_triple s ttp k g c).2.1).triples).isSome = true := by
  unfold TTP.get_beaver_triple
  cases hl : dictLookup g ttp.triples with
  | some t => simp [hl]
  | none => simp [TTP.create_beaver_triple, dictLookup_cons]

theorem get_beaver_slice (s : Nat → Nat) (ttp : TTPSt) (k g c : Nat)
    (T : List Int × List Int × List Int)
    (h : dictLookup g ((TTP.get_beaver_triple s ttp k g c).2.1).triples = some T) :
    (TTP.get_beaver_triple s ttp k g c).1 =
      (T.1.getD c 0, T.2.1.getD c 0, T.2.2.getD c 0) := by
  cases hl : dictLookup g ttp.triples with
  | some t =>
      have hstate : TTP.get_beaver_triple s ttp k g c =
          ((t.1.getD c 0, t.2.1.getD c 0, t.2.2.getD c 0), ttp, k) := by
        unfold TTP.get_beaver_triple; rw [hl]
      rw [hstate] at h ⊢
      simp only at h
      rw [hl] at h
      cases h
      rfl
  | none =>
      have hstate : TTP.get_beaver_triple s ttp k g c =
          TTP.create_beaver_triple s ttp k g c := by
        unfold TTP.get_beaver_triple; rw [hl]
      rw [hstate] at h ⊢
      simp only [TTP.create_beaver_triple, dictLookup_cons, if_pos rfl] at h
      cases h
      rfl

theorem create_beaver_good (s : Nat → Nat) (ttp : TTPSt) (k g c n m : Nat)
    (hn : 1 ≤ n) (hm : 1 < m) (hcc : ttp.client_count = n) (hmod : ttp.mod = m)
    (hgood : GoodTriples n m ttp) :
    GoodTriples n m ((TTP.create_beaver_triple s ttp k g c).2.1) := by
  intro g' T h
  simp only [TTP.create_beaver_triple, dictLookup_cons] at h
  by_cases hg : g' = g
  · rw [if_pos hg] at h
    cases h
    subst hcc; subst hmod
    refine ⟨create_shares_length _ _ _ _ _ hn, create_shares_length _ _ _ _ _ hn,
      create_shares_length _ _ _ _ _ hn, ?_⟩
    rw [recover_create, recover_create, recover_create]
    have hx : ((s k % ttp.mod : Nat) : Int) % (ttp.mod : Int) = ((s k % ttp.mod : Nat) : Int) :=
      Int.emod_eq_of_lt (Int.ofNat_nonneg _) (by exact_mod_cast Nat.mod_lt _ (by omega))
    have hy : ((s (k + 1) % ttp.mod : Nat) : Int) % (ttp.mod : Int) =
        ((s (k + 1) % ttp.mod : Nat) : Int) :=
      Int.emod_eq_of_lt (Int.ofNat_nonneg _) (by exact_mod_cast Nat.mod_lt _ (by omega))
    rw [hx, hy, Int.emod_emod_of_dvd _ dvd_rfl]
  · rw [if_neg hg] at h
    exact hgood g' T h

theorem get_beaver_good (s : Nat → Nat) (ttp : TTPSt) (k g c n m : Nat)
    (hn : 1 ≤ n) (hm : 1 < m) (hcc : ttp.client_count = n) (hmod : ttp.mod = m)
    (hgood : GoodTriples n m ttp) :
    GoodTriples n m ((TTP.get_beaver_triple s ttp k g c).2.1)
    ∧ ((TTP.get_beaver_triple s ttp k g c).2.1).client_count = n
    ∧ ((TTP.get_beaver_triple s ttp k g c).2.1).mod = m := by
  unfold TTP.get_beaver_triple
  cases hl : dictLookup g ttp.triples with
  | some t => exact ⟨hgood, hcc, hmod⟩
  | none =>
      refine ⟨create_beaver_good s ttp k g c n m hn hm hcc hmod hgood, ?_, ?_⟩
      · simp [TTP.create_beaver_triple, hcc]
      · simp [TTP.create_beaver_triple, hmod]

theorem runCalls_good (s : Nat → Nat) (n m : Nat) (hn : 1 ≤ n) (hm : 1 < m) :
    ∀ (calls : List (Nat × Nat)) (ttp : TTPSt) (k : Nat),
      ttp.client_count = n → ttp.mod = m → GoodTriples n m ttp →
      GoodTriples n m (runCalls s calls ttp k).1 := by
  intro calls
  induction calls with
  | nil => intro ttp k hcc hmod hgood; exact hgood
  | cons c rest ih =>
      intro ttp k hcc hmod hgood
      have h := get_beaver_good s ttp k c.1 c.2 n m hn hm hcc hmod hgood
      exact ih _ _ h.2.1 h.2.2 h.1

/-- C5.  For the TTP: (i) after any interleaving of `get_beaver_triple`
calls starting from a fresh TTP, every cached entry holds three `n`-length
share vectors recombining to a consistent Beaver triple
(`z = x*y mod m`); (ii) a cached entry is never replaced by any further
call, so one fixed triple exists per gate id; (iii) every call leaves an
entry for its gate id in the cache; (iv) every call returns exactly the
`client_id`-th slice of the cached share vectors of that entry. -/
theorem ttp_beaver_triple_invariant (s : Nat → Nat) (calls : List (Nat × Nat))
    (n m k g g2 c k2 : Nat) (ttp : TTPSt)
    (T T2 T3 : List Int × List Int × List Int) (hn : 1 ≤ n) (hm : 1 < m) :
    (dictLookup g (runCalls s calls (TTP.init n m) k).1.triples = some T →
      T.1.length = n ∧ T.2.1.length = n ∧ T.2.2.length = n ∧
        recover_secret T.2.2 m =
          (recover_secret T.1 m * recover_secret T.2.1 m) % (m : Int))
    ∧ (dictLookup g ttp.triples = some T2 →
        dictLookup g ((TTP.get_beaver_triple s ttp k2 g2 c).2.1).triples = some T2)
    ∧ (dictLookup g2 ((TTP.get_beaver_triple s ttp k2 g2 c).2.1).triples).isSome = true
    ∧ (dictLookup g2 ((TTP.get_beaver_triple s ttp k2 g2 c).2.1).triples = some T3 →
        (TTP.get_beaver_triple s ttp k2 g2 c).1 =
          (T3.1.getD c 0, T3.2.1.getD c 0, T3.2.2.getD c 0)) := by
  refine ⟨?_, ?_, ?_, ?_⟩
  · intro h
    exact runCalls_good s n m hn hm calls (TTP.init n m) k rfl rfl
      (by intro g' T' h'; cases h') g T h
  · intro h
    exact get_beaver_preserves_entry s ttp k2 g g2 c T2 h
  · exact get_beaver_entry_exists s ttp k2 g2 c
  · intro h
    exact get_beaver_slice s ttp k2 g2 c T3 h

/-- Witness for C5: two parties both request gate 5 from a fresh TTP
(`n = 2`, `m = 3`, all-zero draws); the cached entry recombines to a
consistent triple. -/
theorem ttp_beaver_triple_invariant_witness :
    recover_secret [0, 0] 3 = (recover_secret [0, 0] 3 * recover_secret [0, 0] 3) % ((3 : Nat) : Int) :=
  ((ttp_beaver_triple_invariant zeroStream [(5, 0), (5, 1)] 2 3 0 5 0 0 0
      (TTP.init 2 3) ([0, 0], [0, 0], [0, 0]) ([0, 0], [0, 0], [0, 0])
      ([0, 0], [0, 0], [0, 0]) (by decide) (by decide)).1 (by decide)).2.2.2

-- ------------------------------------------------------------------
-- C1, C4, C6, C7, C8, C9: concrete evaluations of the source behaviour
-- ------------------------------------------------------------------

/-- C1 (failing input).  On the single-Mult circuit `c1Circuit` with
`n = 2`, `m = 2`, inputs `A = B = 1` and the all-zero randomness
realization, the protocol reconstructs `0` at the `Mult` wire, while
`(A*B) mod m = 1`: each party feeds its local, unopened masked differences
into `BGW.mult`, so the summed output shares do not reconstruct the
product. -/
theorem single_mult_reconstruction_fails :
    (run_circuit zeroStream c1Clients (TTP.init 2 2) 0 2).getD 2 none = some 0
    ∧ (1 * 1 : Int) % ((2 : Nat) : Int) = 1 := by
  decide

/-- C4 (failing input).  `run_circuit_until_mult` tests the wire at the
fixed start index instead of the current wire: started at wire 0 (an
input wire) of `c4Circuit`, it runs past the `Mult` wire at index 1,
evaluates it, and returns the `None` sentinel instead of stopping at and
returning index 1. -/
theorem run_until_mult_skips_later_mult :
    (c4Circuit.getD 0 Wire.dflt).isMult = false
    ∧ (c4Circuit.getD 1 Wire.dflt).isMult = true
    ∧ (run_circuit_until_mult c4client 0).2 = none
    ∧ ((run_circuit_until_mult c4client 0).1.output.getD 1 none).isSome = true := by
  decide

/-- C6 (failing input).  Party 1 of `c6Setup` does not own wire 0 (it is
owned by party 0), yet `get_input_share` raises no access error and
silently returns the pre-allocated default share `0`. -/
theorem get_input_share_silent_default :
    c6client.client_id = 1
    ∧ c6Circuit.getD 0 Wire.dflt = Wire.input false 0
    ∧ get_input_share c6client 0 0 = 0 := by
  decide

/-- C7 (failing input).  Wire 0 of `c1Circuit` is not flagged `is_output`,
yet the aggregated result of `BGW.run_circuit` contains a reconstructed
value for it: `get_outputs` returns the party's whole per-wire `output`
dict, never filtering on the `is_output` flag. -/
theorem run_circuit_reveals_non_output_wire :
    (c1Circuit.getD 0 Wire.dflt).is_output = false
    ∧ (run_circuit zeroStream c1Clients (TTP.init 2 2) 0 2).getD 0 none = some 1 := by
  decide

/-- C8 (failing input).  Two runs of the protocol on `c1Clients` that
differ only in the randomness realization (`zeroStream` vs `c8Stream`,
which differ only in the fifth draw) reconstruct different values at the
output `Mult` wire. -/
theorem run_circuit_output_depends_on_randomness :
    (run_circuit zeroStream c1Clients (TTP.init 2 2) 0 2).getD 2 none = some 0
    ∧ (run_circuit c8Stream c1Clients (TTP.init 2 2) 0 2).getD 2 none = some 1 := by
  decide

/-- C9 (counterexample).  The malformed circuit `c9Circuit` — its only
wire references predecessor index 0, not strictly less than its own
index 0 — is accepted by `Client.__init__` without any validation, and the
protocol then evaluates it (producing a value for the malformed wire), so
the structural error is neither rejected at construction time nor kept
from evaluation. -/
theorem malformed_circuit_accepted :
    (Client.init 0 c9Circuit [] 2).circuit = c9Circuit
    ∧ ((run_circuit zeroStream
          [Client.init 0 c9Circuit [] 2, Client.init 1 c9Circuit [] 2]
          (TTP.init 2 2) 0 2).getD 0 none).isSome = true := by
  decide

/-- C9 (amended).  `Client.__init__` performs no circuit validation: for
every client id, input map and modulus it stores the malformed circuit
verbatim, and evaluation proceeds on it — here reconstructing `0` for the
self-referencing `Add` wire from the pre-allocated zero share vectors. -/
theorem client_init_performs_no_validation (cid : Nat) (inputs : List (Nat × Int))
    (m : Nat) :
    (Client.init cid c9Circuit inputs m).circuit = c9Circuit
    ∧ (run_circuit zeroStream
          [Client.init 0 c9Circuit [] 2, Client.init 1 c9Circuit [] 2]
          (TTP.init 2 2) 0 2).getD 0 none = some 0 := by
  exact ⟨rfl, by decide⟩

-- ------------------------------------------------------------------
-- C10: the lock-step evaluation loop
-- ------------------------------------------------------------------

theorem foldl_preserve {α β : Type} (P : α → Prop) (f : α → β → α)
    (hf : ∀ a b, P a → P (f a b)) :
    ∀ (l : List β) (a : α), P a → P (l.foldl f a) := by
  intro l
  induction l with
  | nil => intro a ha; exact ha
  | cons x t ih => intro a ha; exact ih _ (hf a x ha)

theorem getD_replicate {α : Type} (a d : α) :
    ∀ (n i : Nat), i < n → (List.replicate n a).getD i d = a := by
  intro n
  induction n with
  | zero => intro i hi; omega
  | succ t ih =>
      intro i hi
      cases i with
      | zero => rfl
      | succ j =>
          rw [List.replicate_succ, List.getD_cons_succ]
          exact ih j (by omega)

theorem run_until_go_circuit :
    ∀ (fuel : Nat) (st : ClientSt) (start wire_id : Nat),
      (run_until_go st start wire_id fuel).1.circuit = st.circuit := by
  intro fuel
  induction fuel with
  | zero => intro st start wire_id; rfl
  | succ f ih =>
      intro st start wire_id
      rw [run_until_go]
      by_cases h : (st.circuit.getD start Wire.dflt).isMult
      · rw [if_pos h]
      · rw [if_neg h]
        rw [ih]

theorem run_until_go_ret_true (fuel : Nat) (st : ClientSt) (start wire_id : Nat)
    (h : (st.circuit.getD start Wire.dflt).isMult = true) (hf : 0 < fuel) :
    (run_until_go st start wire_id fuel).2 = some wire_id := by
  cases fuel with
  | zero => omega
  | succ f =>
      rw [run_until_go]
      rw [if_pos h]

theorem run_until_go_ret_false :
    ∀ (fuel : Nat) (st : ClientSt) (start wire_id : Nat),
      (st.circuit.getD start Wire.dflt).isMult = false →
      (run_until_go st start wire_id fuel).2 = none := by
  intro fuel
  induction fuel with
  | zero => intro st start wire_id h; rfl
  | succ f ih =>
      intro st start wire_id h
      rw [run_until_go]
      have h' : ¬ (st.circuit.getD start Wire.dflt).isMult = true := by rw [h]; simp
      rw [if_neg h']
      exact ih _ start (wire_id + 1) h

theorem isMult_getD_lt (C : List Wire) (j : Nat)
    (h : (C.getD j Wire.dflt).isMult = true) : j < C.length := by
  by_contra hge
  rw [List.getD_eq_default C Wire.dflt (by omega)] at h
  cases h

theorem run_until_ret (st : ClientSt) (start : Nat) :
    (run_circuit_until_mult st start).2 = untilRet st.circuit start := by
  rw [run_circuit_until_mult, untilRet]
  by_cases h : (st.circuit.getD start Wire.dflt).isMult
  · have hlt : start < st.circuit.length := isMult_getD_lt _ _ h
    rw [run_until_go_ret_true _ _ _ _ h (by omega), if_pos h]
  · rw [run_until_go_ret_false _ _ _ _ (by simpa using h), if_neg h]

theorem run_until_circuit (st : ClientSt) (start : Nat) :
    (run_circuit_until_mult st start).1.circuit = st.circuit :=
  run_until_go_circuit _ st start start

theorem interactive_step_circuit (s : Nat → Nat) (allClients : List ClientSt)
    (acc : ClientSt × TTPSt × Nat) (wire_id : Nat) :
    ((interactive_step s allClients acc wire_id).1).circuit = acc.1.circuit := by
  rw [interactive_step]
  cases h : acc.1.circuit.getD wire_id Wire.dflt <;> simp [h]

theorem interactive_setup_circuit (s : Nat → Nat) (allClients : List ClientSt)
    (ttp : TTPSt) (k : Nat) (st : ClientSt) :
    ((interactive_setup s allClients ttp k st).1).circuit = st.circuit := by
  rw [interactive_setup]
  exact foldl_preserve (fun acc => acc.1.circuit = st.circuit)
    (interactive_step s allClients)
    (fun acc b hP => by
      show (interactive_step s allClients acc b).1.circuit = st.circuit
      rw [interactive_step_circuit]; exact hP)
    (List.range st.circuit.length)
    ({ st with beaver_shares := List.replicate st.circuit.length none }, ttp, k) rfl

theorem local_setup_circuit (s : Nat → Nat) (st : ClientSt) (k : Nat) :
    ((local_setup s st k).1).circuit = st.circuit := rfl

theorem interactivePhaseGo_circuits (s : Nat → Nat) (C : List Wire) :
    ∀ (todo done : List ClientSt) (ttp : TTPSt) (k : Nat),
      (∀ c ∈ done, c.circuit = C) → (∀ c ∈ todo, c.circuit = C) →
      (∀ c ∈ (interactivePhaseGo s done todo ttp k).1, c.circuit = C)
      ∧ (interactivePhaseGo s done todo ttp k).1.length = done.length + todo.length := by
  intro todo
  induction todo with
  | nil =>
      intro done ttp k hdone htodo
      exact ⟨hdone, by simp [interactivePhaseGo]⟩
  | cons st rest ih =>
      intro done ttp k hdone htodo
      rw [interactivePhaseGo]
      have hst : st.circuit = C := htodo st (by simp)
      have hr : ((interactive_setup s (done ++ st :: rest) ttp k st).1).circuit = C := by
        rw [interactive_setup_circuit]; exact hst
      have hdone2 : ∀ c ∈ done ++ [(interactive_setup s (done ++ st :: rest) ttp k st).1],
          c.circuit = C := by
        intro c hc
        rcases List.mem_append.mp hc with h | h
        · exact hdone c h
        · rcases List.mem_singleton.mp h with h'
          rw [h']; exact hr
      have hrest : ∀ c ∈ rest, c.circuit = C := fun c hc => htodo c (by simp [hc])
      have := ih (done ++ [(interactive_setup s (done ++ st :: rest) ttp k st).1])
        ((interactive_setup s (done ++ st :: rest) ttp k st).2.1)
        ((interactive_setup s (done ++ st :: rest) ttp k st).2.2) hdone2 hrest
      refine ⟨this.1, ?_⟩
      rw [this.2]
      simp
      omega

theorem localPhase_circuits (s : Nat → Nat) (C : List Wire) :
    ∀ (clients : List ClientSt) (init : List ClientSt × Nat),
      (∀ c ∈ init.1, c.circuit = C) → (∀ c ∈ clients, c.circuit = C) →
      (∀ c ∈ (clients.foldl (fun acc st =>
          let r := local_setup s st acc.2
          (acc.1 ++ [r.1], r.2)) init).1, c.circuit = C)
      ∧ (clients.foldl (fun acc st =>
          let r := local_setup s st acc.2
          (acc.1 ++ [r.1], r.2)) init).1.length = init.1.length + clients.length := by
  intro clients
  induction clients with
  | nil => intro init hinit _; exact ⟨hinit, by simp⟩
  | cons st rest ih =>
      intro init hinit hcl
      have hst : ((local_setup s st init.2).1).circuit = C := by
        rw [local_setup_circuit]; exact hcl st (by simp)
      have hinit2 : ∀ c ∈ init.1 ++ [(local_setup s st init.2).1], c.circuit = C := by
        intro c hc
        rcases List.mem_append.mp hc with h | h
        · exact hinit c h
        · rw [List.mem_singleton.mp h]; exact hst
      have hrest : ∀ c ∈ rest, c.circuit = C := fun c hc => hcl c (by simp [hc])
      have := ih (init.1 ++ [(local_setup s st init.2).1], (local_setup s st init.2).2)
        hinit2 hrest
      refine ⟨this.1, ?_⟩
      rw [List.foldl_cons, this.2]
      simp
      omega

theorem advanceAll_spec (C : List Wire) (p : Option Int) :
    ∀ (clients : List ClientSt),
      (∀ c ∈ clients, c.circuit = C) →
      (advanceAll clients (List.replicate clients.length p)).2 =
        List.replicate clients.length
          ((untilRet C (p.getD (-1) + 1).toNat).map (fun x => (x : Int)))
      ∧ (∀ c ∈ (advanceAll clients (List.replicate clients.length p)).1, c.circuit = C)
      ∧ (advanceAll clients (List.replicate clients.length p)).1.length = clients.length := by
  intro clients
  induction clients with
  | nil =>
      intro _
      refine ⟨rfl, ?_, rfl⟩
      intro c hc
      cases hc
  | cons c cs ih =>
      intro hC
      have hc : c.circuit = C := hC c (by simp)
      have hcs : ∀ x ∈ cs, x.circuit = C := fun x hx => hC x (by simp [hx])
      have hrec := ih hcs
      rw [List.length_cons, List.replicate_succ, advanceAll]
      have hret : (run_circuit_until_mult c (p.getD (-1) + 1).toNat).2 =
          untilRet C (p.getD (-1) + 1).toNat := by
        rw [run_until_ret, hc]
      refine ⟨?_, ?_, ?_⟩
      · rw [List.replicate_succ]
        simp only []
        rw [hret, hrec.1]
      · intro x hx
        simp only [] at hx
        rcases List.mem_cons.mp hx with h | h
        · rw [h, run_until_circuit, hc]
        · exact hrec.2.1 x h
      · simp only [List.length_cons]
        rw [hrec.2.2]

theorem evalRound_spec (s : Nat → Nat) (C : List Wire) (n : Nat) (gs : GlobalSt)
    (p : Option Int)
    (hC : ∀ c ∈ gs.clients, c.circuit = C) (hlen : gs.clients.length = n)
    (hp : gs.progress = List.replicate n p) :
    (evalRound s gs).progress =
      List.replicate n ((untilRet C (p.getD (-1) + 1).toNat).map (fun x => (x : Int)))
    ∧ (∀ c ∈ (evalRound s gs).clients, c.circuit = C)
    ∧ (evalRound s gs).clients.length = n := by
  have hp' : gs.progress = List.replicate gs.clients.length p := by rw [hlen, hp]
  have hadv := advanceAll_spec C p gs.clients hC
  rw [evalRound]
  simp only []
  rw [hp']
  have hphase := interactivePhaseGo_circuits s C
    (advanceAll gs.clients (List.replicate gs.clients.length p)).1 [] gs.ttp gs.k
    (by intro c hc; cases hc) hadv.2.1
  refine ⟨?_, ?_, ?_⟩
  · rw [hadv.1, hlen]
  · rw [interactivePhase]
    exact hphase.1
  · rw [interactivePhase, hphase.2, List.length_nil, Nat.zero_add, hadv.2.2, hlen]

theorem evalLoop_frozen (s : Nat → Nat) (gs : GlobalSt)
    (h : (gs.progress.getD 0 (some (-1))).isNone = true) :
    ∀ f, evalLoop s f gs = gs := by
  intro f
  cases f with
  | zero => rfl
  | succ f => rw [evalLoop, if_pos h]

theorem evalLoop_add (s : Nat → Nat) :
    ∀ (a b : Nat) (gs : GlobalSt),
      evalLoop s (a + b) gs = evalLoop s b (evalLoop s a gs) := by
  intro a
  induction a with
  | zero => intro b gs; rw [Nat.zero_add]; rfl
  | succ a ih =>
      intro b gs
      by_cases h : (gs.progress.getD 0 (some (-1))).isNone = true
      · simp only [evalLoop_frozen s gs h]
      · have hstep : ∀ t, evalLoop s (t + 1) gs = evalLoop s t (evalRound s gs) := by
          intro t; rw [evalLoop, if_neg h]
        have harith : a + 1 + b = (a + b) + 1 := by omega
        rw [harith, hstep (a + b), ih b (evalRound s gs), hstep a]

theorem evalLoop_reaches_none (s : Nat → Nat) (C : List Wire) (n : Nat) (hn : 1 ≤ n) :
    ∀ (f j : Nat) (gs : GlobalSt),
      2 ≤ f → j + f = C.length + 2 →
      (∀ c ∈ gs.clients, c.circuit = C) → gs.clients.length = n →
      gs.progress = List.replicate n (some ((j : Int) - 1)) →
      (evalLoop s f gs).progress.getD 0 (some 0) = none := by
  intro f
  induction f with
  | zero => intro j gs hf; omega
  | succ f ih =>
      intro j gs hf hjf hC hlen hp
      have hguard : gs.progress.getD 0 (some (-1)) = some ((j : Int) - 1) := by
        rw [hp]; exact getD_replicate _ _ n 0 (by omega)
      have hguard' : ¬ (gs.progress.getD 0 (some (-1))).isNone = true := by
        rw [hguard]; simp
      rw [evalLoop, if_neg hguard']
      have hround := evalRound_spec s C n gs (some ((j : Int) - 1)) hC hlen hp
      have hstart : ((some ((j : Int) - 1)).getD (-1) + 1).toNat = j := by
        simp only [Option.getD]; omega
      by_cases hmult : (C.getD j Wire.dflt).isMult = true
      · have hnext : (untilRet C ((some ((j : Int) - 1)).getD (-1) + 1).toNat).map
            (fun x => (x : Int)) = some (j : Int) := by
          rw [hstart, untilRet, if_pos hmult]; rfl
        have hj : j < C.length := isMult_getD_lt C j hmult
        apply ih (j + 1) (evalRound s gs) (by omega) (by omega) hround.2.1 hround.2.2
        rw [hround.1, hnext]
        have hcast : (j : Int) = ((j + 1 : Nat) : Int) - 1 := by push_cast; ring
        rw [hcast]
      · have hnext : (untilRet C ((some ((j : Int) - 1)).getD (-1) + 1).toNat).map
            (fun x => (x : Int)) = none := by
          rw [hstart, untilRet, if_neg hmult]; rfl
        have hfrozen : ((evalRound s gs).progress.getD 0 (some (-1))).isNone = true := by
          rw [hround.1, hnext, getD_replicate _ _ n 0 (by omega)]
          rfl
        rw [evalLoop_frozen s (evalRound s gs) hfrozen f]
        rw [hround.1, hnext]
        exact getD_replicate _ _ n 0 (by omega)

theorem evalLoop_inv (s : Nat → Nat) (C : List Wire) (n : Nat) :
    ∀ (f : Nat) (gs : GlobalSt), SharedCirc C n gs → SharedCirc C n (evalLoop s f gs) := by
  intro f
  induction f with
  | zero => intro gs h; exact h
  | succ f ih =>
      intro gs h
      rw [evalLoop]
      by_cases hb : (gs.progress.getD 0 (some (-1))).isNone = true
      · rw [if_pos hb]; exact h
      · rw [if_neg hb]
        obtain ⟨h1, h2, p, hp⟩ := h
        have hround := evalRound_spec s C n gs p h1 h2 hp
        exact ih (evalRound s gs) ⟨hround.2.1, hround.2.2, _, hround.1⟩

theorem run_setup_spec (s : Nat → Nat) (C : List Wire) (clients : List ClientSt)
    (ttp : TTPSt) (k : Nat) (hC : ∀ c ∈ clients, c.circuit = C) :
    (∀ c ∈ (run_setup s clients ttp k).clients, c.circuit = C)
    ∧ (run_setup s clients ttp k).clients.length = clients.length
    ∧ (run_setup s clients ttp k).progress =
        List.replicate clients.length (some (-1)) := by
  have hmap : ∀ c ∈ clients.map (fun c => { c with n := clients.length }), c.circuit = C := by
    intro c hc
    rcases List.mem_map.mp hc with ⟨c0, hc0, hcc⟩
    rw [← hcc]
    exact hC c0 hc0
  have hlp := localPhase_circuits s C (clients.map (fun c => { c with n := clients.length }))
    ([], k) (by intro c hc; cases hc) hmap
  have hip := interactivePhaseGo_circuits s C
    ((clients.map (fun c => { c with n := clients.length })).foldl (fun acc st =>
        let r := local_setup s st acc.2
        (acc.1 ++ [r.1], r.2)) ([], k)).1 [] ttp
    ((clients.map (fun c => { c with n := clients.length })).foldl (fun acc st =>
        let r := local_setup s st acc.2
        (acc.1 ++ [r.1], r.2)) ([], k)).2
    (by intro c hc; cases hc) hlp.1
  refine ⟨?_, ?_, rfl⟩
  · exact hip.1
  · rw [run_setup]
    simp only []
    rw [localPhase, interactivePhase, hip.2, List.length_nil, Nat.zero_add, hlp.2]
    simp

theorem getD_zero_none (l : List (Option Int)) (h : l.getD 0 (some 0) = none) :
    (l.getD 0 (some (-1))).isNone = true := by
  cases l with
  | nil => cases h
  | cons a t => rw [List.getD_cons_zero] at h ⊢; rw [h]; rfl

/-- C10.  For parties sharing one circuit `C` (with `n ≥ 2` parties), the
lock-step loop of `BGW.run_circuit`: (i) running with any fuel beyond
`len(C) + 2` changes nothing, i.e. the loop terminates after at most
`len(C) + 1` executed rounds; (ii) after that bound the loop has reached
its break state (`progress[0]` is the `None` sentinel); (iii) at every
point of the loop all `progress` entries are equal, so testing only
`progress[0]` suffices and `progress[i] + 1` is never computed while
`progress[i]` is `None`. -/
theorem run_circuit_lockstep (s : Nat → Nat) (C : List Wire)
    (clients : List ClientSt) (ttp : TTPSt) (k extra f i : Nat)
    (hC : ∀ c ∈ clients, c.circuit = C) (hn : 2 ≤ clients.length)
    (hi : i < clients.length) :
    evalLoop s (C.length + 2 + extra) (run_setup s clients ttp k) =
      evalLoop s (C.length + 2) (run_setup s clients ttp k)
    ∧ (evalLoop s (C.length + 2) (run_setup s clients ttp k)).progress.getD 0 (some 0) = none
    ∧ (evalLoop s f (run_setup s clients ttp k)).progress.getD i none =
        (evalLoop s f (run_setup s clients ttp k)).progress.getD 0 none := by
  obtain ⟨hc0, hl0, hp0⟩ := run_setup_spec s C clients ttp k hC
  have hp0' : (run_setup s clients ttp k).progress =
      List.replicate clients.length (some (((0 : Nat) : Int) - 1)) := by
    rw [hp0]
    norm_num
  have hreach : (evalLoop s (C.length + 2) (run_setup s clients ttp k)).progress.getD 0
      (some 0) = none :=
    evalLoop_reaches_none s C clients.length (by omega) (C.length + 2) 0
      (run_setup s clients ttp k) (by omega) (by omega) hc0 hl0 hp0'
  refine ⟨?_, hreach, ?_⟩
  · rw [evalLoop_add s (C.length + 2) extra (run_setup s clients ttp k)]
    exact evalLoop_frozen s _ (getD_zero_none _ hreach) extra
  · have hinv := evalLoop_inv s C clients.length f (run_setup s clients ttp k)
      ⟨hc0, hl0, some (-1), hp0⟩
    obtain ⟨-, -, p, hp⟩ := hinv
    rw [hp, getD_replicate _ _ clients.length i hi,
      getD_replicate _ _ clients.length 0 (by omega)]

/-- Witness for C10 on the concrete two-party single-Mult instance: after
`len(C) + 2` units of fuel the loop has reached its break state. -/
theorem run_circuit_lockstep_witness :
    (evalLoop zeroStream (c1Circuit.length + 2)
      (run_setup zeroStream c1Clients (TTP.init 2 2) 0)).progress.getD 0 (some 0) = none :=
  (run_circuit_lockstep zeroStream c1Circuit c1Clients (TTP.init 2 2) 0 1 0 1
    (by decide) (by decide) (by decide)).2.1
